import Mathlib

set_option maxHeartbeats 1000000

/-!
Verification of the comment-removal pipeline of `nogocomments`
(`internal/commentremover`) and of the line-oriented file reader
(`internal/filereader`).

The pure string-processing parts of the code — the snippet normalizer
`checkAndPrefixSource`, the restorer `removeDummyPackage`, the pipeline
driver `RemoveComments`, and `ReadFile`'s line re-assembly — are embedded
directly.  The Go standard-library parser and printer are external
collaborators of the pipeline; following the design document they are
modelled as a pluggable adapter (`Parse : text -> tree or error`,
`Print : tree -> text or error`), and the contracts the design document
ascribes to them appear as hypotheses of the corresponding theorems.
-/

/-- Tokens distinguished by the normalizer's scan: comment tokens, the
`package` keyword, and every other token.  End of input is represented by
`none` from the token scanner. -/
inductive GoTok : Type
  | COMMENT : GoTok
  | PACKAGE : GoTok
  | OTHER : GoTok
  deriving DecidableEq

/-- Characters that may continue a Go identifier.  ASCII letters, digits and
underscore exactly as in the Go scanner; non-ASCII characters are
approximated as identifier characters (the scanner consults full Unicode
letter tables there). -/
def isIdentChar (c : Char) : Bool := c.isAlphanum || c = '_' || c.val ≥ 128

/-- Boolean list-prefix test used throughout the embedding. -/
def isPre : List Char → List Char → Bool
  | [], _ => true
  | _ :: _, [] => false
  | a :: as, b :: bs => a == b && isPre as bs

/-- Rest of the input after a line comment body: the Go scanner's line
comment token extends up to (not including) the next newline. -/
def dropLineComment : List Char → List Char
  | [] => []
  | c :: rest => if c = '\n' then c :: rest else dropLineComment rest

/-- Rest of the input after a general comment body: the Go scanner's general
comment token extends through the closing star-slash; an unterminated
comment extends to end of input. -/
def dropBlockComment : List Char → List Char
  | [] => []
  | [_] => []
  | a :: b :: rest => if a = '*' ∧ b = '/' then rest else dropBlockComment (b :: rest)

/-- Does the input start with the `package` keyword (the literal word
followed by a non-identifier character or end of input)? -/
def isPackageKw (l : List Char) : Bool :=
  isPre "package".data l &&
    (match l.drop 7 with
     | [] => true
     | c :: _ => !(isIdentChar c))

/-- One step of the token scan driving `checkAndPrefixSource`: skip
whitespace, then classify the next token as a comment, the `package`
keyword, or anything else, returning it with the rest of the input. -/
def nextTok : List Char → Option (GoTok × List Char)
  | [] => none
  | c :: rest =>
    if c = ' ' ∨ c = '\t' ∨ c = '\n' ∨ c = '\r' then nextTok rest
    else if c = '/' ∧ rest.head? = some '/' then some (GoTok.COMMENT, dropLineComment rest.tail)
    else if c = '/' ∧ rest.head? = some '*' then some (GoTok.COMMENT, dropBlockComment rest.tail)
    else if isPackageKw (c :: rest) then some (GoTok.PACKAGE, (c :: rest).drop 7)
    else some (GoTok.OTHER, rest)

/-- The Go scanner skips a byte-order mark at the very beginning of a file. -/
def stripBOM : List Char → List Char
  | [] => []
  | c :: rest => if c = Char.ofNat 0xFEFF then rest else c :: rest

/-- The synthetic declaration used by both `checkAndPrefixSource` and
`removeDummyPackage` (constant `dummyPackage` in the source). -/
def dummyPackage : String := "package main\n"

/-- The token-scanning loop of `checkAndPrefixSource`, with explicit fuel:
on end of input return the source unchanged with flag `false`; on a token
that is neither a comment nor `package` return the source with the dummy
package prepended and flag `true`; on `package` return the source unchanged
with flag `false`; on a comment continue scanning.  `none` means the fuel
ran out (shown impossible for the fuel used below). -/
def checkLoopF (sourceCode : String) : Nat → List Char → Option (String × Bool)
  | 0, _ => none
  | fuel + 1, chars =>
    match nextTok chars with
    | none => some (sourceCode, false)
    | some (tok, rest) =>
      if tok ≠ GoTok.COMMENT ∧ tok ≠ GoTok.PACKAGE then some (dummyPackage ++ sourceCode, true)
      else if tok = GoTok.PACKAGE then some (sourceCode, false)
      else checkLoopF sourceCode fuel rest

/-- Embedding of `checkAndPrefixSource` from the source: scan tokens from the start of
the input and decide whether to prepend the dummy package declaration. -/
def checkAndPrefixSource (sourceCode : String) : String × Bool :=
  (checkLoopF sourceCode (sourceCode.data.length + 1) (stripBOM sourceCode.data)).getD
    (sourceCode, false)

/-- Fueled computation of the first non-comment token of the input. -/
def firstNonCommentTokF : Nat → List Char → Option GoTok
  | 0, _ => none
  | fuel + 1, chars =>
    match nextTok chars with
    | none => none
    | some (tok, rest) =>
      if tok = GoTok.COMMENT then firstNonCommentTokF fuel rest else some tok

/-- The first non-comment token of the input, or `none` when only comments
(or nothing) precede end of input. -/
def firstNonCommentTok (chars : List Char) : Option GoTok :=
  firstNonCommentTokF (chars.length + 1) chars

/-- The outcome the design document prescribes for the normalizer, as a
function of the first non-comment token: prepend the synthetic line exactly
when that token exists and is not the `package` keyword. -/
def normalizerResult (s : String) : Option GoTok → String × Bool
  | some GoTok.OTHER => (dummyPackage ++ s, true)
  | _ => (s, false)

/-- Removal of the first occurrence of `pat` from a character list,
embedding `strings.Replace(s, pat, "", 1)`. -/
def replaceFirst (pat : List Char) : List Char → List Char
  | [] => []
  | c :: rest =>
    if isPre pat (c :: rest) then (c :: rest).drop pat.length
    else c :: replaceFirst pat rest

/-- Does `pat` occur as a contiguous sublist? -/
def containsSub (pat : List Char) : List Char → Bool
  | [] => isPre pat []
  | c :: rest => isPre pat (c :: rest) || containsSub pat rest

/-- Embedding of `removeDummyPackage` from the source: remove the first literal
occurrence of the dummy package declaration. -/
def removeDummyPackage (sourceCode : String) : String :=
  String.mk (replaceFirst dummyPackage.data sourceCode.data)

/-- The slice of `go/ast.File` the pipeline manipulates: the (abstract)
declarations and the list of comment groups attached to the file. -/
structure AstFile (α : Type) where
  decls : α
  comments : List String

/-- The external parser/printer library, as the pluggable capability set
described in the design document.  `parse` builds a syntax tree retaining
comment attachments or fails; `print` serializes a tree to canonical
formatted text or fails. -/
structure Adapter (α : Type) where
  parse : String → Except String (AstFile α)
  print : AstFile α → Except String String

/-- Embedding of `removeCommentsFromAST` from the source: clear the file's comment list. -/
def removeCommentsFromAST {α : Type} (file : AstFile α) : AstFile α :=
  { file with comments := [] }

/-- Embedding of `parseSourceCode` from the source: delegate to the library parser and
wrap any error. -/
def parseSourceCode {α : Type} (A : Adapter α) (sourceCode : String) :
    Except String (AstFile α) :=
  match A.parse sourceCode with
  | Except.error e => Except.error ("error parsing source code: " ++ e)
  | Except.ok file => Except.ok file

/-- Embedding of `formatAST` from the source: delegate to the library printer and wrap
any error. -/
def formatAST {α : Type} (A : Adapter α) (file : AstFile α) : Except String String :=
  match A.print file with
  | Except.error e => Except.error ("error formatting source code: " ++ e)
  | Except.ok s => Except.ok s

/-- Embedding of `RemoveComments` from the source: normalize, parse, strip comments,
format, and restore.  The Go pair `(string, error)` is modelled as
`String × Option String`; an error returns the empty output string exactly
as in the source. -/
def RemoveComments {α : Type} (A : Adapter α) (sourceCode : String) :
    String × Option String :=
  match parseSourceCode A (checkAndPrefixSource sourceCode).1 with
  | Except.error e => ("", some e)
  | Except.ok file =>
    match formatAST A (removeCommentsFromAST file) with
    | Except.error e => ("", some e)
    | Except.ok result =>
      (if (checkAndPrefixSource sourceCode).2 then removeDummyPackage result else result, none)

/-- Lexical state for tracking Go string, character and raw-string
literals. -/
inductive LitSt : Type
  | code | str | strEsc | chr | chrEsc | raw
  deriving DecidableEq

/-- The backquote character delimiting Go raw string literals. -/
def btChar : Char := Char.ofNat 96

/-- One character of literal tracking: enter a literal at its opening
delimiter, leave it at its unescaped closing delimiter. -/
def litStep : LitSt → Char → LitSt
  | LitSt.code, c =>
    if c = '"' then LitSt.str
    else if c = '\'' then LitSt.chr
    else if c = btChar then LitSt.raw
    else LitSt.code
  | LitSt.str, c =>
    if c = '\\' then LitSt.strEsc else if c = '"' then LitSt.code else LitSt.str
  | LitSt.strEsc, _ => LitSt.str
  | LitSt.chr, c =>
    if c = '\\' then LitSt.chrEsc else if c = '\'' then LitSt.code else LitSt.chr
  | LitSt.chrEsc, _ => LitSt.chr
  | LitSt.raw, c => if c = btChar then LitSt.code else LitSt.raw

/-- Scan the text and report whether no slash-slash and no slash-star pair
starts outside string/character literals. -/
def markerFreeAux : LitSt → List Char → Bool
  | _, [] => true
  | st, c :: rest =>
    if st = LitSt.code ∧ c = '/' ∧ (rest.head? = some '/' ∨ rest.head? = some '*') then false
    else markerFreeAux (litStep st c) rest

/-- No comment marker occurs outside string/character literals. -/
def markerFree (s : String) : Bool := markerFreeAux LitSt.code s.data

/-- Lexical state for extracting literal contents, additionally tracking
comments (a pending slash, line comments, general comments). -/
inductive LexSt : Type
  | code | slash | lineC | blockC | blockStar | str | strEsc | chr | chrEsc | raw
  deriving DecidableEq

/-- Scan the text and collect the contents (between the delimiters, escape
sequences kept as written) of every string, character and raw string
literal, skipping comments.  `acc` holds the reversed content of the
literal currently open. -/
def extractAux : LexSt → List Char → List Char → List (List Char)
  | _, _, [] => []
  | LexSt.code, acc, c :: rest =>
    if c = '/' then extractAux LexSt.slash acc rest
    else if c = '"' then extractAux LexSt.str [] rest
    else if c = '\'' then extractAux LexSt.chr [] rest
    else if c = btChar then extractAux LexSt.raw [] rest
    else extractAux LexSt.code acc rest
  | LexSt.slash, acc, c :: rest =>
    if c = '/' then extractAux LexSt.lineC acc rest
    else if c = '*' then extractAux LexSt.blockC acc rest
    else if c = '"' then extractAux LexSt.str [] rest
    else if c = '\'' then extractAux LexSt.chr [] rest
    else if c = btChar then extractAux LexSt.raw [] rest
    else extractAux LexSt.code acc rest
  | LexSt.lineC, acc, c :: rest =>
    if c = '\n' then extractAux LexSt.code acc rest else extractAux LexSt.lineC acc rest
  | LexSt.blockC, acc, c :: rest =>
    if c = '*' then extractAux LexSt.blockStar acc rest else extractAux LexSt.blockC acc rest
  | LexSt.blockStar, acc, c :: rest =>
    if c = '/' then extractAux LexSt.code acc rest
    else if c = '*' then extractAux LexSt.blockStar acc rest
    else extractAux LexSt.blockC acc rest
  | LexSt.str, acc, c :: rest =>
    if c = '"' then acc.reverse :: extractAux LexSt.code [] rest
    else if c = '\\' then extractAux LexSt.strEsc (c :: acc) rest
    else extractAux LexSt.str (c :: acc) rest
  | LexSt.strEsc, acc, c :: rest => extractAux LexSt.str (c :: acc) rest
  | LexSt.chr, acc, c :: rest =>
    if c = '\'' then acc.reverse :: extractAux LexSt.code [] rest
    else if c = '\\' then extractAux LexSt.chrEsc (c :: acc) rest
    else extractAux LexSt.chr (c :: acc) rest
  | LexSt.chrEsc, acc, c :: rest => extractAux LexSt.chr (c :: acc) rest
  | LexSt.raw, acc, c :: rest =>
    if c = btChar then acc.reverse :: extractAux LexSt.code [] rest
    else extractAux LexSt.raw (c :: acc) rest

/-- The sequence of string/character/raw-string literal contents of a
source text. -/
def extractLits (s : String) : List (List Char) := extractAux LexSt.code [] s.data

/-- Embedding of `dropCR` from `bufio`: drop one terminal carriage return. -/
def dropCR (l : List Char) : List Char :=
  match l.getLast? with
  | some c => if c = '\r' then l.dropLast else l
  | none => l

/-- The successive tokens `bufio.Scanner` yields under `bufio.ScanLines`:
split at each newline, drop one terminal carriage return from each line,
and yield a final unterminated line only when it is nonempty.  `acc` is the
portion of the current line already consumed. -/
def scanLinesAux : List Char → List Char → List (List Char)
  | acc, [] => if acc = [] then [] else [dropCR acc]
  | acc, c :: rest =>
    if c = '\n' then dropCR acc :: scanLinesAux [] rest
    else scanLinesAux (acc ++ [c]) rest

/-- The content transformation of `ReadFile` (`internal/filereader`) on a
successfully read file: append each scanned line followed by a newline to
the output builder. -/
def ReadFile (content : String) : String :=
  String.mk ((scanLinesAux [] content.data).foldl (fun acc line => acc ++ line ++ ['\n']) [])

/-- Specification-side split of a text at newlines (a trailing newline
yields a final empty fragment). -/
def splitNL : List Char → List (List Char)
  | [] => [[]]
  | c :: rest =>
    if c = '\n' then [] :: splitNL rest
    else
      match splitNL rest with
      | [] => [[c]]
      | l :: ls => (c :: l) :: ls

/-- Specification-side lines of a text: the newline-separated fragments,
where a trailing newline terminates the last line rather than opening an
empty one. -/
def linesOf (data : List Char) : List (List Char) :=
  if data = [] then []
  else if data.getLast? = some '\n' then (splitNL data).dropLast
  else splitNL data

/-- A library stub that rejects every input (concrete collaborator used to
instantiate theorems about parse failures). -/
def failAdapter : Adapter Unit :=
  ⟨fun _ => Except.error "boom", fun _ => Except.ok ""⟩

/-- A library stub whose trees store the source text and whose printer
returns it unchanged (concrete collaborator for which every input is
canonically formatted). -/
def idAdapter : Adapter String :=
  ⟨fun src => Except.ok ⟨src, []⟩, fun f => Except.ok f.decls⟩

/-- A library stub printing one fixed comment-free unit for every tree
(concrete collaborator whose printer output is marker-free). -/
def constPrintAdapter : Adapter Unit :=
  ⟨fun _ => Except.ok ⟨(), []⟩,
   fun _ => Except.ok "package main\n\nfunc main() \x7b\x7d\n"⟩

/-- The single source text accepted by `litAdapter`: a unit with one string
literal containing a comment marker and one line comment. -/
def litSrc : String := "package main\nfunc f() \x7b _ = \"a//b\" \x7d // c\n"

/-- The comment-free text `litAdapter` prints for `litSrc`. -/
def litOut : String := "package main\nfunc f() \x7b _ = \"a//b\" \x7d\n"

/-- A library stub accepting exactly `litSrc` and printing `litOut`
(concrete collaborator that preserves literal contents). -/
def litAdapter : Adapter String :=
  ⟨fun src => if src = litSrc then Except.ok ⟨"tree", []⟩ else Except.error "e",
   fun f => if f.decls = "tree" then Except.ok litOut else Except.error "e"⟩

theorem dropLineComment_length_le (l : List Char) :
    (dropLineComment l).length ≤ l.length := by
  induction l with
  | nil => simp [dropLineComment]
  | cons c rest ih =>
    simp only [dropLineComment]
    split
    · exact Nat.le_refl _
    · exact Nat.le_trans ih (by simp)

theorem dropBlockComment_length_le (l : List Char) :
    (dropBlockComment l).length ≤ l.length := by
  induction l with
  | nil => simp [dropBlockComment]
  | cons a rest ih =>
    cases rest with
    | nil => simp [dropBlockComment]
    | cons b r2 =>
      simp only [dropBlockComment]
      split
      · simp only [List.length_cons]
        omega
      · exact Nat.le_trans ih (by simp)

theorem isPre_length_le : ∀ p l : List Char, isPre p l = true → p.length ≤ l.length := by
  intro p
  induction p with
  | nil => intro l _; exact Nat.zero_le _
  | cons a as ih =>
    intro l h
    cases l with
    | nil => simp [isPre] at h
    | cons b bs =>
      simp only [isPre, Bool.and_eq_true] at h
      simpa using ih bs h.2

theorem nextTok_length_lt (l : List Char) :
    ∀ t r, nextTok l = some (t, r) → r.length < l.length := by
  induction l with
  | nil => intro t r h; simp [nextTok] at h
  | cons c rest ih =>
    intro t r h
    simp only [nextTok] at h
    split at h
    · exact Nat.lt_succ_of_lt (ih t r h)
    · split at h
      · obtain ⟨rfl, rfl⟩ : GoTok.COMMENT = t ∧ dropLineComment rest.tail = r := by
          simpa using h
        have h1 := dropLineComment_length_le rest.tail
        have h2 : rest.tail.length ≤ rest.length := by
          cases rest <;> simp
        simp only [List.length_cons]
        omega
      · split at h
        · obtain ⟨rfl, rfl⟩ : GoTok.COMMENT = t ∧ dropBlockComment rest.tail = r := by
            simpa using h
          have h1 := dropBlockComment_length_le rest.tail
          have h2 : rest.tail.length ≤ rest.length := by
            cases rest <;> simp
          simp only [List.length_cons]
          omega
        · split at h
          · rename_i hkw
            have hinj : some (GoTok.PACKAGE, (c :: rest).drop 7) = some (t, r) := h
            obtain ⟨rfl, rfl⟩ : GoTok.PACKAGE = t ∧ (c :: rest).drop 7 = r := by
              simpa [Prod.ext_iff] using hinj
            have h7 : ("package".data).length ≤ (c :: rest).length := by
              refine isPre_length_le _ _ ?_
              simp only [isPackageKw, Bool.and_eq_true] at hkw
              exact hkw.1
            have hd : ((c :: rest).drop 7).length = (c :: rest).length - 7 :=
              List.length_drop _ _
            have h7' : ("package".data).length = 7 := by decide
            rw [hd]
            simp only [List.length_cons] at h7 ⊢
            omega
          · obtain ⟨rfl, rfl⟩ : GoTok.OTHER = t ∧ rest = r := by
              simpa using h
            exact Nat.lt_succ_self _

theorem stripBOM_length_le (l : List Char) : (stripBOM l).length ≤ l.length := by
  cases l with
  | nil => simp [stripBOM]
  | cons c rest =>
    simp only [stripBOM]
    split
    · simp
    · exact Nat.le_refl _

theorem firstNonCommentTokF_fuel :
    ∀ (f1 f2 : Nat) (chars : List Char), chars.length < f1 → chars.length < f2 →
      firstNonCommentTokF f1 chars = firstNonCommentTokF f2 chars := by
  intro f1
  induction f1 with
  | zero => intro f2 chars h1 _; exact absurd h1 (Nat.not_lt_zero _)
  | succ f1 ih =>
    intro f2 chars h1 h2
    cases f2 with
    | zero => exact absurd h2 (Nat.not_lt_zero _)
    | succ f2 =>
      simp only [firstNonCommentTokF]
      cases hn : nextTok chars with
      | none => rfl
      | some tr =>
        obtain ⟨tok, rest⟩ := tr
        have hlt := nextTok_length_lt chars tok rest hn
        simp only []
        split
        · exact ih f2 rest (by omega) (by omega)
        · rfl

theorem checkLoopF_eq :
    ∀ (fuel : Nat) (chars : List Char) (s : String), chars.length < fuel →
      checkLoopF s fuel chars = some (normalizerResult s (firstNonCommentTok chars)) := by
  intro fuel
  induction fuel with
  | zero => intro chars s h; exact absurd h (Nat.not_lt_zero _)
  | succ fuel ih =>
    intro chars s h
    simp only [checkLoopF]
    cases hn : nextTok chars with
    | none =>
      have hf : firstNonCommentTok chars = none := by
        simp [firstNonCommentTok, firstNonCommentTokF, hn]
      rw [hf]
      rfl
    | some tr =>
      obtain ⟨tok, rest⟩ := tr
      have hlt := nextTok_length_lt chars tok rest hn
      cases tok with
      | COMMENT =>
        have hf : firstNonCommentTok chars = firstNonCommentTok rest := by
          unfold firstNonCommentTok
          conv_lhs => rw [firstNonCommentTokF]
          rw [hn]
          simp only [if_pos rfl]
          exact firstNonCommentTokF_fuel chars.length (rest.length + 1) rest (by omega)
            (Nat.lt_succ_self _)
        rw [hf]
        simp only [ne_eq, not_true_eq_false, false_and, if_false, reduceCtorEq, if_neg]
        exact ih rest s (by omega)
      | PACKAGE =>
        have hf : firstNonCommentTok chars = some GoTok.PACKAGE := by
          simp [firstNonCommentTok, firstNonCommentTokF, hn]
        rw [hf]
        simp [normalizerResult]
      | OTHER =>
        have hf : firstNonCommentTok chars = some GoTok.OTHER := by
          simp [firstNonCommentTok, firstNonCommentTokF, hn]
        rw [hf]
        simp [normalizerResult]

theorem checkAndPrefixSource_eq (s : String) :
    checkAndPrefixSource s = normalizerResult s (firstNonCommentTok (stripBOM s.data)) := by
  unfold checkAndPrefixSource
  rw [checkLoopF_eq (s.data.length + 1) (stripBOM s.data) s
    (Nat.lt_succ_of_le (stripBOM_length_le s.data))]
  rfl

theorem checkAndPrefixSource_cases (s : String) :
    checkAndPrefixSource s = (s, false) ∨
      checkAndPrefixSource s = (dummyPackage ++ s, true) := by
  rw [checkAndPrefixSource_eq]
  cases hf : firstNonCommentTok (stripBOM s.data) with
  | none => exact Or.inl rfl
  | some tok => cases tok <;> simp [normalizerResult]

/-- C1: the normalizer scans tokens from the start skipping comment tokens;
if the first non-comment token is the `package` keyword the input is
returned unchanged with flag `false`; if any other non-comment token
appears first the synthetic line `package main\n` is prepended and the flag
is `true`; if only comments (or nothing) precede end of input the input is
returned unchanged with flag `false`. -/
theorem C1_normalizer_cases (s : String) :
    (firstNonCommentTok (stripBOM s.data) = some GoTok.PACKAGE →
      checkAndPrefixSource s = (s, false)) ∧
    (firstNonCommentTok (stripBOM s.data) = some GoTok.OTHER →
      checkAndPrefixSource s = (dummyPackage ++ s, true)) ∧
    (firstNonCommentTok (stripBOM s.data) = none →
      checkAndPrefixSource s = (s, false)) := by
  refine ⟨?_, ?_, ?_⟩ <;> intro hf <;> rw [checkAndPrefixSource_eq, hf] <;> rfl

theorem C1_normalizer_cases_witness :
    checkAndPrefixSource "// c\nfunc f()" = ("package main\n// c\nfunc f()", true) ∧
    checkAndPrefixSource "package x" = ("package x", false) ∧
    checkAndPrefixSource "/* only a comment */" = ("/* only a comment */", false) :=
  ⟨(C1_normalizer_cases "// c\nfunc f()").2.1 (by decide),
   (C1_normalizer_cases "package x").1 (by decide),
   (C1_normalizer_cases "/* only a comment */").2.2 (by decide)⟩

/-- C6: the normalizer and the restorer are total over every string input:
the normalizer's token-scanning loop always reaches a result within its
fuel (it cannot fail or diverge), and the restorer is a plain total string
function. -/
theorem C6_normalizer_restorer_total (s : String) :
    (∃ r : String × Bool,
      checkLoopF s (s.data.length + 1) (stripBOM s.data) = some r ∧
        checkAndPrefixSource s = r) ∧
    ∃ t : String, removeDummyPackage s = t := by
  refine ⟨⟨normalizerResult s (firstNonCommentTok (stripBOM s.data)), ?_, ?_⟩,
    ⟨removeDummyPackage s, rfl⟩⟩
  · exact checkLoopF_eq _ _ _ (Nat.lt_succ_of_le (stripBOM_length_le s.data))
  · exact checkAndPrefixSource_eq s

theorem isPre_eq_append : ∀ p l : List Char, isPre p l = true → l = p ++ l.drop p.length := by
  intro p
  induction p with
  | nil => intro l _; simp
  | cons a as ih =>
    intro l h
    cases l with
    | nil => simp [isPre] at h
    | cons b bs =>
      simp only [isPre, Bool.and_eq_true, beq_iff_eq] at h
      obtain ⟨rfl, h2⟩ := h
      simp only [List.cons_append, List.length_cons, List.drop_succ_cons, List.cons.injEq,
        true_and]
      exact ih bs h2

theorem isPre_append_self : ∀ p l : List Char, isPre p (p ++ l) = true := by
  intro p l
  induction p with
  | nil => rfl
  | cons a as ih => simp [isPre, ih]

theorem replaceFirst_of_isPre (p l : List Char) (hne : p ≠ []) (h : isPre p l = true) :
    replaceFirst p l = l.drop p.length := by
  cases l with
  | nil =>
    cases p with
    | nil => exact absurd rfl hne
    | cons a as => simp [isPre] at h
  | cons c rest => simp [replaceFirst, h]

theorem replaceFirst_not_contains (p : List Char) :
    ∀ l, containsSub p l = false → replaceFirst p l = l := by
  intro l
  induction l with
  | nil => intro _; rfl
  | cons c rest ih =>
    intro h
    simp only [containsSub, Bool.or_eq_false_iff] at h
    simp only [replaceFirst, h.1, Bool.false_eq_true, if_false]
    rw [ih h.2]

theorem replaceFirst_first_occ (p : List Char) (hne : p ≠ []) :
    ∀ pre post, (∀ i, i < pre.length → isPre p ((pre ++ (p ++ post)).drop i) = false) →
      replaceFirst p (pre ++ (p ++ post)) = pre ++ post := by
  intro pre
  induction pre with
  | nil =>
    intro post _
    simp only [List.nil_append]
    rw [replaceFirst_of_isPre p _ hne (isPre_append_self p post)]
    exact List.drop_left p post
  | cons a pre ih =>
    intro post h
    have h0 : isPre p (a :: pre ++ (p ++ post)) = false := by
      have := h 0 (Nat.succ_pos _)
      simpa using this
    simp only [List.cons_append] at h0 ⊢
    simp only [replaceFirst, h0, Bool.false_eq_true, if_false, List.cons.injEq, true_and]
    refine ih post ?_
    intro i hi
    have := h (i + 1) (by simpa using Nat.succ_lt_succ hi)
    simpa using this

/-- C4: the restorer removes the first literal occurrence of the exact
synthetic line `package main\n`; when that substring does not occur the
text is returned unchanged without error; and when the input consists of
the synthetic line followed by text in which the line does not occur
again, the synthetic line is absent from the result. -/
theorem C4_restorer_first_occurrence (s : String) :
    (containsSub dummyPackage.data s.data = false → removeDummyPackage s = s) ∧
    (∀ pre post, s.data = pre ++ (dummyPackage.data ++ post) →
      (∀ i, i < pre.length → isPre dummyPackage.data (s.data.drop i) = false) →
      (removeDummyPackage s).data = pre ++ post) ∧
    (∀ rest, s.data = dummyPackage.data ++ rest →
      containsSub dummyPackage.data rest = false →
      containsSub dummyPackage.data (removeDummyPackage s).data = false) := by
  refine ⟨?_, ?_, ?_⟩
  · intro h
    unfold removeDummyPackage
    rw [replaceFirst_not_contains _ _ h]
  · intro pre post hdec hfirst
    show replaceFirst dummyPackage.data s.data = pre ++ post
    rw [hdec]
    refine replaceFirst_first_occ _ (by decide) pre post ?_
    intro i hi
    have := hfirst i hi
    rwa [hdec] at this
  · intro rest hdec hnc
    show containsSub dummyPackage.data (replaceFirst dummyPackage.data s.data) = false
    rw [hdec, replaceFirst_of_isPre _ _ (by decide) (isPre_append_self _ _), List.drop_left]
    exact hnc

theorem C4_restorer_first_occurrence_witness :
    removeDummyPackage "no dummy line here" = "no dummy line here" ∧
    (removeDummyPackage "abcpackage main\ndef").data = "abc".data ++ "def".data ∧
    containsSub dummyPackage.data (removeDummyPackage "package main\nX").data = false :=
  ⟨(C4_restorer_first_occurrence "no dummy line here").1 (by decide),
   (C4_restorer_first_occurrence "abcpackage main\ndef").2.1 "abc".data "def".data
     (by decide) (by decide),
   (C4_restorer_first_occurrence "package main\nX").2.2 "X".data (by decide) (by decide)⟩

theorem RemoveComments_parse_error {α : Type} (A : Adapter α) (s e : String)
    (hfail : A.parse (checkAndPrefixSource s).1 = Except.error e) :
    RemoveComments A s = ("", some ("error parsing source code: " ++ e)) := by
  unfold RemoveComments parseSourceCode
  rw [hfail]

theorem RemoveComments_ok {α : Type} (A : Adapter α) (s : String) (file : AstFile α)
    (o : String) (hp : A.parse (checkAndPrefixSource s).1 = Except.ok file)
    (hq : A.print (removeCommentsFromAST file) = Except.ok o) :
    RemoveComments A s =
      (if (checkAndPrefixSource s).2 then removeDummyPackage o else o, none) := by
  unfold RemoveComments parseSourceCode formatAST
  simp only [hp, hq]

theorem RemoveComments_ok_inv {α : Type} (A : Adapter α) (s out : String)
    (hok : RemoveComments A s = (out, none)) :
    ∃ (file : AstFile α) (o : String),
      A.parse (checkAndPrefixSource s).1 = Except.ok file ∧
      A.print (removeCommentsFromAST file) = Except.ok o ∧
      out = if (checkAndPrefixSource s).2 then removeDummyPackage o else o := by
  cases hp : A.parse (checkAndPrefixSource s).1 with
  | error e =>
    rw [RemoveComments_parse_error A s e hp] at hok
    exact absurd (congrArg Prod.snd hok) (by simp)
  | ok file =>
    cases hq : A.print (removeCommentsFromAST file) with
    | error e =>
      have : RemoveComments A s = ("", some ("error formatting source code: " ++ e)) := by
        unfold RemoveComments parseSourceCode formatAST
        simp only [hp, hq]
      rw [this] at hok
      exact absurd (congrArg Prod.snd hok) (by simp)
    | ok o =>
      rw [RemoveComments_ok A s file o hp hq] at hok
      exact ⟨file, o, rfl, hq, (congrArg Prod.fst hok).symm⟩

/-- C3: for every input whose normalized form the parser rejects, the
pipeline returns the empty string together with the (wrapped) parse error,
and the printer — hence formatting and restoration — is never consulted:
replacing the printer by any other yields the identical error result.
The parser is the external grammar library, supplied as an adapter. -/
theorem C3_parse_error_no_output {α : Type} (A : Adapter α) (s e : String)
    (hfail : A.parse (checkAndPrefixSource s).1 = Except.error e) :
    RemoveComments A s = ("", some ("error parsing source code: " ++ e)) ∧
    ∀ pr : AstFile α → Except String String,
      RemoveComments (Adapter.mk A.parse pr) s =
        ("", some ("error parsing source code: " ++ e)) := by
  refine ⟨RemoveComments_parse_error A s e hfail, ?_⟩
  intro pr
  refine RemoveComments_parse_error (Adapter.mk A.parse pr) s e ?_
  exact hfail

theorem C3_parse_error_no_output_witness :
    RemoveComments failAdapter "func f( \x7b" = ("", some "error parsing source code: boom") ∧
    RemoveComments (Adapter.mk failAdapter.parse (fun _ => Except.ok "X")) "func f( \x7b" =
      ("", some "error parsing source code: boom") := by
  have h := C3_parse_error_no_output failAdapter "func f( \x7b" "boom" rfl
  exact ⟨h.1, h.2 (fun _ => Except.ok "X")⟩

/-- C9: on the empty input the normalizer returns the empty string with
flag `false`, and since the parser rejects the empty text, the pipeline
returns the empty string together with a non-`none` error. -/
theorem C9_empty_input_error {α : Type} (A : Adapter α) (e : String)
    (hempty : A.parse "" = Except.error e) :
    checkAndPrefixSource "" = ("", false) ∧
    RemoveComments A "" = ("", some ("error parsing source code: " ++ e)) := by
  refine ⟨by decide, ?_⟩
  refine RemoveComments_parse_error A "" e ?_
  exact hempty

theorem C9_empty_input_error_witness :
    checkAndPrefixSource "" = ("", false) ∧
    RemoveComments failAdapter "" = ("", some "error parsing source code: boom") :=
  C9_empty_input_error failAdapter "boom" rfl

/-- C5: on already-comment-free canonically formatted input — input the
normalizer leaves alone, which the library parses to a comment-free tree
and prints back verbatim — the pipeline returns the input unchanged, so
running it twice equals running it once. -/
theorem C5_idempotent_on_canonical {α : Type} (A : Adapter α) (s : String) (t : AstFile α)
    (hflag : checkAndPrefixSource s = (s, false))
    (hparse : A.parse s = Except.ok t)
    (_hcf : t.comments = [])
    (hprint : A.print (removeCommentsFromAST t) = Except.ok s) :
    RemoveComments A s = (s, none) ∧
    RemoveComments A (RemoveComments A s).1 = RemoveComments A s := by
  have hp : A.parse (checkAndPrefixSource s).1 = Except.ok t := by
    rw [hflag]
    exact hparse
  have h1 : RemoveComments A s = (s, none) := by
    rw [RemoveComments_ok A s t s hp hprint, hflag]
    rfl
  refine ⟨h1, ?_⟩
  rw [h1]
  exact h1

theorem C5_idempotent_on_canonical_witness :
    RemoveComments idAdapter "package main" = ("package main", none) ∧
    RemoveComments idAdapter (RemoveComments idAdapter "package main").1 =
      RemoveComments idAdapter "package main" :=
  C5_idempotent_on_canonical idAdapter "package main" ⟨"package main", []⟩
    (by decide) rfl rfl rfl

theorem markerFreeAux_dummy (l : List Char) :
    markerFreeAux LitSt.code (dummyPackage.data ++ l) = markerFreeAux LitSt.code l := rfl

/-- C2: whenever the pipeline succeeds, and the (spec-modelled) printer
prints comment-free trees without comment markers outside literals and
emits the synthetic line only at the start of its output, the final output
contains no comment marker outside string/character literals. -/
theorem C2_no_comment_marker {α : Type} (A : Adapter α) (s out : String)
    (hprint : ∀ (t : AstFile α) (o : String), t.comments = [] → A.print t = Except.ok o →
      markerFree o = true ∧
        (containsSub dummyPackage.data o.data = true →
          isPre dummyPackage.data o.data = true))
    (hok : RemoveComments A s = (out, none)) :
    markerFree out = true := by
  obtain ⟨file, o, hp, hq, hout⟩ := RemoveComments_ok_inv A s out hok
  obtain ⟨hm, hpre⟩ := hprint (removeCommentsFromAST file) o rfl hq
  subst hout
  split
  · cases hc : containsSub dummyPackage.data o.data with
    | false =>
      show markerFreeAux LitSt.code (replaceFirst dummyPackage.data o.data) = true
      rw [replaceFirst_not_contains _ _ hc]
      exact hm
    | true =>
      have hpre2 := hpre hc
      have hdec := isPre_eq_append _ _ hpre2
      show markerFreeAux LitSt.code (replaceFirst dummyPackage.data o.data) = true
      rw [replaceFirst_of_isPre _ _ (by decide) hpre2]
      have hm2 : markerFreeAux LitSt.code o.data = true := hm
      rw [hdec, markerFreeAux_dummy] at hm2
      exact hm2
  · exact hm

theorem C2_no_comment_marker_witness : markerFree "\nfunc main() \x7b\x7d\n" = true := by
  refine C2_no_comment_marker constPrintAdapter "func main() \x7b\x7d"
    "\nfunc main() \x7b\x7d\n" ?_ ?_
  · intro t o ht ho
    injection ho with h
    subst h
    exact ⟨by decide, by decide⟩
  · rfl

theorem extractAux_dummy (acc l : List Char) :
    extractAux LexSt.code acc (dummyPackage.data ++ l) = extractAux LexSt.code acc l := rfl

theorem extractLits_dummy_append (s : String) :
    extractLits (dummyPackage ++ s) = extractLits s := by
  show extractAux LexSt.code [] (dummyPackage ++ s).data = extractAux LexSt.code [] s.data
  rw [String.data_append]
  exact extractAux_dummy [] s.data

/-- C8: whenever the pipeline succeeds, and the (spec-modelled) library
preserves string/character-literal contents from parsed source to printed
output and emits the synthetic line only at the start of its output, the
final output has exactly the literal contents of the input. -/
theorem C8_literal_preservation {α : Type} (A : Adapter α) (s out : String)
    (hlib : ∀ (src : String) (t : AstFile α) (o : String),
      A.parse src = Except.ok t → A.print (removeCommentsFromAST t) = Except.ok o →
      extractLits o = extractLits src ∧
        (containsSub dummyPackage.data o.data = true →
          isPre dummyPackage.data o.data = true))
    (hok : RemoveComments A s = (out, none)) :
    extractLits out = extractLits s := by
  obtain ⟨file, o, hp, hq, hout⟩ := RemoveComments_ok_inv A s out hok
  obtain ⟨he, hpre⟩ := hlib (checkAndPrefixSource s).1 file o hp hq
  rcases checkAndPrefixSource_cases s with hnp | hnp <;> rw [hnp] at he hout <;> subst hout
  · simpa using he
  · have he2 : extractLits o = extractLits s := by
      have hx : extractLits ((dummyPackage ++ s, true).1) = extractLits s :=
        extractLits_dummy_append s
      exact he.trans hx
    show extractLits (removeDummyPackage o) = extractLits s
    cases hc : containsSub dummyPackage.data o.data with
    | false =>
      show extractAux LexSt.code [] (replaceFirst dummyPackage.data o.data) = extractLits s
      rw [replaceFirst_not_contains _ _ hc]
      exact he2
    | true =>
      have hpre2 := hpre hc
      have hdec := isPre_eq_append _ _ hpre2
      show extractAux LexSt.code [] (replaceFirst dummyPackage.data o.data) = extractLits s
      rw [replaceFirst_of_isPre _ _ (by decide) hpre2]
      have he3 : extractAux LexSt.code [] o.data = extractLits s := he2
      rw [hdec, extractAux_dummy] at he3
      exact he3

theorem C8_literal_preservation_witness : extractLits litOut = extractLits litSrc := by
  refine C8_literal_preservation litAdapter litSrc litOut ?_ ?_
  · intro src t o hp hq
    by_cases hsrc : src = litSrc
    · subst hsrc
      simp only [litAdapter, if_pos rfl] at hp
      injection hp with h
      subst h
      simp only [litAdapter, removeCommentsFromAST, if_pos rfl] at hq
      injection hq with h2
      subst h2
      exact ⟨by decide, by decide⟩
    · exact absurd hp (by simp [litAdapter, hsrc])
  · rfl

theorem splitNL_ne_nil : ∀ l : List Char, splitNL l ≠ [] := by
  intro l
  cases l with
  | nil => simp [splitNL]
  | cons c rest =>
    simp only [splitNL]
    split
    · simp
    · split <;> simp

theorem splitNL_no_newline : ∀ l : List Char, '\n' ∉ l → splitNL l = [l] := by
  intro l
  induction l with
  | nil => intro _; rfl
  | cons c rest ih =>
    intro h
    have hc : ¬c = '\n' := fun hcc => h (hcc ▸ List.mem_cons_self c rest)
    have hr : '\n' ∉ rest := fun hm => h (List.mem_cons_of_mem _ hm)
    simp only [splitNL, if_neg hc]
    rw [ih hr]

theorem splitNL_append_newline : ∀ a l : List Char, '\n' ∉ a →
    splitNL (a ++ '\n' :: l) = a :: splitNL l := by
  intro a
  induction a with
  | nil =>
    intro l _
    show splitNL ('\n' :: l) = [] :: splitNL l
    simp [splitNL]
  | cons c a ih =>
    intro l h
    have hc : ¬c = '\n' := fun hcc => h (hcc ▸ List.mem_cons_self c a)
    have ha : '\n' ∉ a := fun hm => h (List.mem_cons_of_mem _ hm)
    rw [List.cons_append, splitNL, if_neg hc, ih l ha]

theorem mem_of_getLast_newline : ∀ l : List Char, l.getLast? = some '\n' → '\n' ∈ l := by
  intro l
  induction l with
  | nil => intro h; simp at h
  | cons c rest ih =>
    intro h
    cases hr : rest with
    | nil =>
      subst hr
      have : c = '\n' := by simpa using h
      exact this ▸ List.mem_cons_self c []
    | cons b r =>
      subst hr
      have h2 : (b :: r).getLast? = some '\n' := by
        rwa [show (c :: b :: r).getLast? = (b :: r).getLast? from
          List.getLast?_append_of_ne_nil [c] (by simp)] at h
      exact List.mem_cons_of_mem _ (ih h2)

theorem linesOf_append_newline (a l : List Char) (h : '\n' ∉ a) :
    linesOf (a ++ '\n' :: l) = a :: linesOf l := by
  unfold linesOf
  have hne : a ++ '\n' :: l ≠ [] := by simp
  rw [if_neg hne, List.getLast?_append_cons, splitNL_append_newline a l h]
  by_cases hl : l = []
  · subst hl
    simp [splitNL]
  · rw [show ('\n' :: l).getLast? = l.getLast? from
      List.getLast?_append_of_ne_nil ['\n'] hl, if_neg hl]
    by_cases hln : l.getLast? = some '\n'
    · rw [if_pos hln, if_pos hln]
      obtain ⟨x, xs, hx⟩ : ∃ x xs, splitNL l = x :: xs := by
        cases hsp : splitNL l with
        | nil => exact absurd hsp (splitNL_ne_nil l)
        | cons x xs => exact ⟨x, xs, rfl⟩
      rw [hx, List.dropLast_cons₂]
    · rw [if_neg hln, if_neg hln]

theorem scanLinesAux_eq : ∀ data acc : List Char, '\n' ∉ acc →
    scanLinesAux acc data = (linesOf (acc ++ data)).map dropCR := by
  intro data
  induction data with
  | nil =>
    intro acc h
    simp only [scanLinesAux, List.append_nil]
    split
    · rename_i hacc
      rw [hacc]
      rfl
    · rename_i hacc
      unfold linesOf
      have hlast : ¬acc.getLast? = some '\n' := fun hl => h (mem_of_getLast_newline acc hl)
      rw [if_neg hacc, if_neg hlast, splitNL_no_newline acc h]
      rfl
  | cons c rest ih =>
    intro acc h
    simp only [scanLinesAux]
    split
    · rename_i hc
      subst hc
      rw [ih [] (by simp), linesOf_append_newline acc rest h]
      rfl
    · rename_i hc
      have hnc : '\n' ∉ acc ++ [c] := by
        intro hm
        rcases List.mem_append.mp hm with hm1 | hm2
        · exact h hm1
        · exact hc ((by simpa using hm2 : '\n' = c)).symm
      rw [ih (acc ++ [c]) hnc, List.append_assoc, List.singleton_append]

theorem scanLinesAux_ne_nil : ∀ data acc : List Char, acc ++ data ≠ [] →
    scanLinesAux acc data ≠ [] := by
  intro data
  induction data with
  | nil =>
    intro acc h
    simp only [List.append_nil] at h
    simp [scanLinesAux, h]
  | cons c rest ih =>
    intro acc _
    simp only [scanLinesAux]
    split
    · simp
    · exact ih (acc ++ [c]) (by simp)

theorem foldl_append_lines : ∀ (ls : List (List Char)) (init : List Char),
    ls.foldl (fun acc line => acc ++ line ++ ['\n']) init =
      init ++ (ls.map (fun l => l ++ ['\n'])).flatten := by
  intro ls
  induction ls with
  | nil => intro init; simp
  | cons l ls ih =>
    intro init
    simp only [List.foldl_cons, List.map_cons, List.flatten_cons]
    rw [ih]
    simp [List.append_assoc]

theorem flatten_lines_getLast : ∀ ls : List (List Char), ls ≠ [] →
    ((ls.map (fun l => dropCR l ++ ['\n'])).flatten).getLast? = some '\n' := by
  intro ls
  induction ls with
  | nil => intro h; exact absurd rfl h
  | cons l ls ih =>
    intro _
    cases hls : ls with
    | nil =>
      simp only [List.map_cons, List.map_nil, List.flatten_cons, List.flatten_nil,
        List.append_nil]
      rw [List.getLast?_append_cons]
      rfl
    | cons l2 ls2 =>
      subst hls
      simp only [List.map_cons, List.flatten_cons]
      rw [List.getLast?_append_of_ne_nil]
      · exact ih (by simp)
      · simp

/-- C10: `ReadFile` re-assembles successfully read content line by line,
each line terminated by a single newline, with one terminal carriage
return dropped from every line (so CRLF endings become a lone newline) and
a trailing newline appended to an unterminated last line; hence every
non-empty result ends in a newline. -/
theorem C10_readfile_lines (content : String) :
    ReadFile content =
      String.mk (((linesOf content.data).map (fun l => dropCR l ++ ['\n'])).flatten) ∧
    (content.data ≠ [] → (ReadFile content).data.getLast? = some '\n') := by
  have hM := scanLinesAux_eq content.data [] (by simp)
  rw [List.nil_append] at hM
  have h1 : (ReadFile content).data =
      ((linesOf content.data).map (fun l => dropCR l ++ ['\n'])).flatten := by
    show (scanLinesAux [] content.data).foldl (fun acc line => acc ++ line ++ ['\n']) [] = _
    rw [hM, foldl_append_lines]
    simp only [List.nil_append, List.map_map]
    rfl
  constructor
  · exact congrArg String.mk h1
  · intro hne
    rw [h1]
    refine flatten_lines_getLast _ ?_
    have hsne : scanLinesAux [] content.data ≠ [] :=
      scanLinesAux_ne_nil content.data [] (by simpa using hne)
    rw [hM] at hsne
    intro hLnil
    exact hsne (by rw [hLnil]; rfl)

theorem C10_readfile_lines_witness :
    (ReadFile "hi\r\nx").data.getLast? = some '\n' :=
  (C10_readfile_lines "hi\r\nx").2 (by decide)
